import Mathlib

/-!
Verification of the cultivation-art optimizer (`src/utils/math.ts`).

The source is a TypeScript module.  JavaScript numbers are embedded as exact
arithmetic: resource values ("zhenyuan") are integers (`ℤ`, the code floors
them at the formula boundary), times and formula intermediates are rationals
(`ℚ`).  The in-place stable `Array.prototype.sort` with comparator
`(a, b) => b.z - a.z` is embedded as a stable insertion sort by `z`
descending (a stable sort's output is determined by the comparator and
stability, so any stable sort is a faithful model).
-/

/-- Difficulty modifier based on level (`getDifficultyModifier`). -/
def getDifficultyModifier (level : ℕ) : ℚ :=
  if level < 309 then 1
  else if 309 ≤ level ∧ level < 400 then (9 * (level : ℚ) - 1811) / 890
  else 2

/-- Cultivation value needed to go from `level` to `level + 1`
(`getLevelUpCostValue`). -/
def getLevelUpCostValue (level : ℕ) (difficulty : ℚ) : ℚ :=
  (difficulty * ((level : ℚ) ^ 3 + 1000) / 100) * getDifficultyModifier level

/-- The raw (unfloored) zhenyuan quantity `3 * Level^3 * Difficulty / 10127`
times the main/secondary factor. -/
def zhenyuanRaw (level : ℕ) (difficulty : ℚ) (isMain : Bool) : ℚ :=
  (3 * (level : ℚ) ^ 3 * difficulty) / 10127 * (if isMain then 1 else 1 / 2)

/-- Total zhenyuan at a level (`getZhenyuan`); the code floors the raw value. -/
def getZhenyuan (level : ℕ) (difficulty : ℚ) (isMain : Bool) : ℤ :=
  ⌊zhenyuanRaw level difficulty isMain⌋

/-- Breakthrough time in hours (`getBreakthroughTime`). -/
def getBreakthroughTime (targetLevelEndingIn9 : ℕ) (reductionPercent : ℚ) : ℚ :=
  let baseTime : ℚ :=
    if 99 ≤ targetLevelEndingIn9 ∧ targetLevelEndingIn9 ≤ 289 then 2
    else if 299 ≤ targetLevelEndingIn9 ∧ targetLevelEndingIn9 ≤ 389 then 4
    else if 399 ≤ targetLevelEndingIn9 then 8
    else 0
  baseTime * (1 - reductionPercent / 100)

/-- Cost in hours to go from `startLevel` (ending in 9) to `startLevel + 10`
(`getStepCost`): breakthrough time plus the span's ten per-level cultivation
values divided by the speed. -/
def getStepCost (startLevel : ℕ) (difficulty speed breakthroughReduction : ℚ) : ℚ :=
  let breakTime := getBreakthroughTime startLevel breakthroughReduction
  let cultValue := ((List.range 10).map
    (fun k => getLevelUpCostValue (startLevel + k) difficulty)).sum
  breakTime + cultValue / speed

/-- One item specification of the optimizer input. -/
structure ItemSpec where
  id : String
  difficulty : ℚ
  isMain : Bool
  count : ℕ
  deriving DecidableEq, Repr

/-- One flattened instance (`instances` entries in `optimize`). -/
structure Instance where
  uniqueId : String
  difficulty : ℚ
  isMain : Bool
  deriving DecidableEq, Repr

/-- The optimizer settings object. -/
inductive TargetType
  | zhenyuan
  | time
  deriving DecidableEq, Repr

structure Settings where
  speed : ℚ
  reduction : ℚ
  targetType : TargetType
  targetValue : ℚ
  deriving DecidableEq, Repr

/-- Step 1 of `optimize`: flatten the specs, each spec with count `k` yields
`k` instances with unique ids `id_0 .. id_(k-1)`. -/
def expandInstances (arts : List ItemSpec) : List Instance :=
  arts.flatMap (fun art =>
    (List.range art.count).map (fun i =>
      ⟨art.id ++ "_" ++ toString i, art.difficulty, art.isMain⟩))

/-- One stopping-point option of an instance: level, zhenyuan at that level,
cumulative time cost from level 99. -/
structure OptionPt where
  level : ℕ
  z : ℤ
  t : ℚ
  deriving DecidableEq, Repr

/-- The option-building loop of `optimize` step 2: starting at level `l` with
accumulated time `cum`, perform `n` more 10-level spans, emitting one option
after each span. -/
def optionsLoop (d : ℚ) (isMain : Bool) (speed red : ℚ) : ℕ → ℕ → ℚ → List OptionPt
  | 0, _, _ => []
  | n + 1, l, cum =>
    let stepT := getStepCost l d speed red
    let cum2 := cum + stepT
    ⟨l + 10, getZhenyuan (l + 10) d isMain, cum2⟩ :: optionsLoop d isMain speed red n (l + 10) cum2

/-- Step 2 of `optimize`: the option curve of one instance — base option at
level 99 with cost 0, then one option per 10-level span up to 499
(the code loops `l = 99; l < 499; l += 10`, i.e. 40 spans). -/
def instanceOptions (d : ℚ) (isMain : Bool) (speed red : ℚ) : List OptionPt :=
  ⟨99, getZhenyuan 99 d isMain, 0⟩ :: optionsLoop d isMain speed red 40 99 0

/-- One state of the DP frontier: delta zhenyuan relative to the all-99
baseline, total time, chosen level per instance. -/
structure DPState where
  z : ℤ
  t : ℚ
  choices : List ℕ
  deriving DecidableEq, Repr

/-- The bucket of a zhenyuan delta: `Math.floor(z / BUCKET_SIZE)` with
`BUCKET_SIZE = 100`. -/
def bucketOf (z : ℤ) : ℤ := ⌊(z : ℚ) / 100⌋

def bucketOfS (s : DPState) : ℤ := bucketOf s.z

/-- Comparator test `t < minTimeSeen`, with `none` standing for the initial
`Infinity`. -/
def ltMin (t : ℚ) : Option ℚ → Bool
  | none => true
  | some m => decide (t < m)

/-- The prune loop of the merge step: scan the (sorted) candidates, keep a
candidate iff its time beats `minTimeSeen` and its bucket is unseen; only a
kept candidate updates `minTimeSeen` and the seen-bucket set. -/
def pruneAux : List DPState → Option ℚ → Finset ℤ → List DPState
  | [], _, _ => []
  | s :: rest, minT, seen =>
    if ltMin s.t minT then
      if bucketOfS s ∈ seen then
        pruneAux rest minT seen
      else
        s :: pruneAux rest (some s.t) (insert (bucketOfS s) seen)
    else
      pruneAux rest minT seen

def prune (l : List DPState) : List DPState := pruneAux l none ∅

/-- The sort relation of the merge step: `z` descending. -/
def zDesc (a b : DPState) : Prop := b.z ≤ a.z

instance : DecidableRel zDesc := fun a b => inferInstanceAs (Decidable (b.z ≤ a.z))

instance : IsTotal DPState zDesc := ⟨fun a b => le_total b.z a.z⟩

instance : IsTrans DPState zDesc := ⟨fun _ _ _ h₁ h₂ => le_trans h₂ h₁⟩

/-- The `z`-value of the first option of an instance (`options[0].z`). -/
def headZ (options : List OptionPt) : ℤ :=
  match options with
  | [] => 0
  | o :: _ => o.z

/-- The expand phase of one merge step: cross every frontier state with every
option of instance `i` (in the code's iteration order). -/
def expandStep (i : ℕ) (options : List OptionPt) (frontier : List DPState) : List DPState :=
  frontier.flatMap (fun s =>
    options.map (fun o =>
      ⟨s.z + (o.z - headZ options), s.t + o.t, s.choices.set i o.level⟩))

/-- One merge step of `optimize` step 3: expand, stable-sort by `z`
descending, prune. -/
def mergeStep (i : ℕ) (options : List OptionPt) (frontier : List DPState) : List DPState :=
  prune (List.insertionSort zDesc (expandStep i options frontier))

/-- The fold of merge steps over the instances, carrying the instance index. -/
def runMergeFrom (i : ℕ) : List (List OptionPt) → List DPState → List DPState
  | [], F => F
  | o :: rest, F => runMergeFrom (i + 1) rest (mergeStep i o F)

/-- Option curves of all instances. -/
def instOptsOf (arts : List ItemSpec) (st : Settings) : List (List OptionPt) :=
  (expandInstances arts).map (fun inst =>
    instanceOptions inst.difficulty inst.isMain st.speed st.reduction)

/-- The initial frontier: a single state — level 99 everywhere, zero delta,
zero time. -/
def initFrontier (arts : List ItemSpec) : List DPState :=
  [⟨0, 0, List.replicate (expandInstances arts).length 99⟩]

/-- The frontier after processing the first `k` instances (the state of the
fold after `k` merge steps). -/
def prefixFrontier (arts : List ItemSpec) (st : Settings) (k : ℕ) : List DPState :=
  runMergeFrom 0 ((instOptsOf arts st).take k) (initFrontier arts)

/-- Sum of the level-99 zhenyuan over the instances (`baseTotalZ`). -/
def baseTotal (instances : List Instance) : ℤ :=
  (instances.map (fun inst => getZhenyuan 99 inst.difficulty inst.isMain)).sum

/-- The resource-floor selector loop: keep updating `best` while
`state.z + baseTotalZ >= targetValue`, break at the first failure. -/
def selectZLoop (base : ℤ) (target : ℚ) : List DPState → Option DPState → Option DPState
  | [], best => best
  | s :: rest, best =>
    if target ≤ ((s.z + base : ℤ) : ℚ) then selectZLoop base target rest (some s)
    else best

/-- Resource-floor selection with the best-effort fallback `frontier[0]`. -/
def selectZ (base : ℤ) (target : ℚ) (frontier : List DPState) : Option DPState :=
  match selectZLoop base target frontier none with
  | some b => some b
  | none => frontier.head?

/-- The time-budget selector loop: return the first state with
`state.t <= targetValue`. -/
def selectTLoop (target : ℚ) : List DPState → Option DPState
  | [] => none
  | s :: rest => if s.t ≤ target then some s else selectTLoop target rest

/-- Time-budget selection with the best-effort fallback
`frontier[frontier.length - 1]`. -/
def selectT (target : ℚ) (frontier : List DPState) : Option DPState :=
  match selectTLoop target frontier with
  | some b => some b
  | none => frontier.getLast?

/-- The result record of `optimize` (the constant `path: []` field is
omitted). -/
structure OptResult where
  totalZhenyuan : ℤ
  totalTimeHours : ℚ
  arts : List (String × ℕ)
  deriving DecidableEq, Repr

/-- The final frontier of the merge fold. -/
def finalFrontier (arts : List ItemSpec) (st : Settings) : List DPState :=
  runMergeFrom 0 (instOptsOf arts st) (initFrontier arts)

/-- The best state picked by the Target Selector. -/
def bestState (arts : List ItemSpec) (st : Settings) : Option DPState :=
  match st.targetType with
  | TargetType.zhenyuan =>
      selectZ (baseTotal (expandInstances arts)) st.targetValue (finalFrontier arts st)
  | TargetType.time => selectT st.targetValue (finalFrontier arts st)

/-- The full optimizer (`optimize` in `src/utils/math.ts`). -/
def optimize (arts : List ItemSpec) (st : Settings) : Option OptResult :=
  if expandInstances arts = [] then some ⟨0, 0, []⟩
  else
    (bestState arts st).map (fun b =>
      ⟨b.z + baseTotal (expandInstances arts), b.t,
        ((expandInstances arts).zip b.choices).map (fun p => (p.1.uniqueId, p.2))⟩)

/-! ### Arithmetic facts about the curve formulas -/

theorem getDifficultyModifier_ge_one (level : ℕ) : 1 ≤ getDifficultyModifier level := by
  unfold getDifficultyModifier
  split
  · exact le_refl 1
  · split
    · rename_i h₁ h₂
      rw [le_div_iff (by norm_num : (0:ℚ) < 890)]
      have : (309 : ℚ) ≤ (level : ℚ) := by exact_mod_cast h₂.1
      linarith
    · norm_num

theorem getLevelUpCostValue_pos (level : ℕ) (d : ℚ) (hd : 0 < d) :
    0 < getLevelUpCostValue level d := by
  unfold getLevelUpCostValue
  have h1 : (0:ℚ) < (level : ℚ) ^ 3 + 1000 := by positivity
  have h2 := getDifficultyModifier_ge_one level
  have : (0:ℚ) < d * ((level : ℚ) ^ 3 + 1000) / 100 := by positivity
  nlinarith

theorem getBreakthroughTime_nonneg (l : ℕ) (r : ℚ) (hr : r ≤ 100) :
    0 ≤ getBreakthroughTime l r := by
  unfold getBreakthroughTime
  have h : (0:ℚ) ≤ 1 - r / 100 := by linarith
  split <;> [skip; split <;> [skip; split]] <;> positivity

theorem getStepCost_pos (l : ℕ) (d sp r : ℚ) (hd : 0 < d) (hsp : 0 < sp) (hr : r ≤ 100) :
    0 < getStepCost l d sp r := by
  unfold getStepCost
  have hbt := getBreakthroughTime_nonneg l r hr
  have hsum : 0 < ((List.range 10).map (fun k => getLevelUpCostValue (l + k) d)).sum := by
    have hall : ∀ q ∈ (List.range 10).map (fun k => getLevelUpCostValue (l + k) d), 0 < q := by
      intro q hq
      obtain ⟨k, _, rfl⟩ := List.mem_map.mp hq
      exact getLevelUpCostValue_pos _ d hd
    calc (0:ℚ) < getLevelUpCostValue (l + 0) d := getLevelUpCostValue_pos _ d hd
      _ ≤ _ := by
        apply List.single_le_sum (fun q hq => le_of_lt (hall q hq))
        exact List.mem_map.mpr ⟨0, by simp, rfl⟩
  positivity

/-! ### Monotonicity of the zhenyuan value function -/

theorem zhenyuanRaw_mono (d : ℚ) (m : Bool) (hd : 0 ≤ d) {l l' : ℕ} (h : l ≤ l') :
    zhenyuanRaw l d m ≤ zhenyuanRaw l' d m := by
  unfold zhenyuanRaw
  have hll : (l : ℚ) ≤ (l' : ℚ) := by exact_mod_cast h
  have h0 : (0:ℚ) ≤ (l : ℚ) := by positivity
  have hc : ((l : ℚ)) ^ 3 ≤ ((l' : ℚ)) ^ 3 := pow_le_pow_left h0 hll 3
  have hcd : ((l : ℚ)) ^ 3 * d ≤ ((l' : ℚ)) ^ 3 * d := mul_le_mul_of_nonneg_right hc hd
  rcases m with _ | _ <;> norm_num <;> linarith

theorem getZhenyuan_mono (d : ℚ) (m : Bool) (hd : 0 ≤ d) {l l' : ℕ} (h : l ≤ l') :
    getZhenyuan l d m ≤ getZhenyuan l' d m :=
  Int.floor_le_floor (zhenyuanRaw_mono d m hd h)

theorem zhenyuanRaw_gap (d : ℚ) (m : Bool) {l : ℕ} (hl : 99 ≤ l) (hd : 0 < d) :
    zhenyuanRaw l d m + 974190 * d / 20254 ≤ zhenyuanRaw (l + 10) d m := by
  unfold zhenyuanRaw
  have hcast : (99 : ℚ) ≤ (l : ℚ) := by exact_mod_cast hl
  have hc : ((l : ℚ)) ^ 3 + 324730 ≤ ((l : ℚ) + 10) ^ 3 := by nlinarith
  have hcd : (((l : ℚ)) ^ 3 + 324730) * d ≤ (((l : ℚ) + 10) ^ 3) * d :=
    mul_le_mul_of_nonneg_right hc (le_of_lt hd)
  rcases m with _ | _ <;> push_cast <;> norm_num <;> linarith

theorem getZhenyuan_gap (d : ℚ) (m : Bool) {l : ℕ} (hl : 99 ≤ l) (hd : 0 < d)
    (c : ℤ) (hc : (c : ℚ) ≤ 974190 * d / 20254) :
    getZhenyuan l d m + c ≤ getZhenyuan (l + 10) d m := by
  unfold getZhenyuan
  have h1 : zhenyuanRaw l d m + (c : ℚ) ≤ zhenyuanRaw (l + 10) d m :=
    le_trans (by linarith) (zhenyuanRaw_gap d m hl hd)
  calc ⌊zhenyuanRaw l d m⌋ + c = ⌊zhenyuanRaw l d m + (c : ℚ)⌋ := (Int.floor_add_int _ c).symm
    _ ≤ ⌊zhenyuanRaw (l + 10) d m⌋ := Int.floor_le_floor h1

theorem getZhenyuan_gap_one (d : ℚ) (m : Bool) {l : ℕ} (hl : 99 ≤ l) (hd : 1 ≤ d) :
    getZhenyuan l d m + 1 ≤ getZhenyuan (l + 10) d m := by
  apply getZhenyuan_gap d m hl (by linarith) 1
  rw [le_div_iff (by norm_num : (0:ℚ) < 20254)]
  push_cast
  linarith

theorem getZhenyuan_gap_hundred (d : ℚ) (m : Bool) {l : ℕ} (hl : 99 ≤ l) (hd : 3 ≤ d) :
    getZhenyuan l d m + 101 ≤ getZhenyuan (l + 10) d m := by
  apply getZhenyuan_gap d m hl (by linarith) 101
  rw [le_div_iff (by norm_num : (0:ℚ) < 20254)]
  push_cast
  linarith

/-! ### Structure of the option curves -/

theorem optionsLoop_mem (d : ℚ) (m : Bool) (sp r : ℚ)
    (hd : 0 < d) (hsp : 0 < sp) (hr : r ≤ 100) :
    ∀ (n l : ℕ) (cum : ℚ), 99 ≤ l →
      ∀ x ∈ optionsLoop d m sp r n l cum,
        cum + getStepCost l d sp r ≤ x.t ∧ getZhenyuan (l + 10) d m ≤ x.z ∧ l + 10 ≤ x.level
  | 0, _, _, _, x, hx => by simp [optionsLoop] at hx
  | n + 1, l, cum, hl, x, hx => by
    simp only [optionsLoop, List.mem_cons] at hx
    rcases hx with rfl | hx
    · exact ⟨le_refl _, le_refl _, le_refl _⟩
    · have ih := optionsLoop_mem d m sp r hd hsp hr n (l + 10)
        (cum + getStepCost l d sp r) (by omega) x hx
      have hstep : 0 < getStepCost (l + 10) d sp r := getStepCost_pos _ d sp r hd hsp hr
      refine ⟨by linarith [ih.1], le_trans (getZhenyuan_mono d m hd.le (by omega)) ih.2.1, by omega⟩

theorem optionsLoop_pairwise_t (d : ℚ) (m : Bool) (sp r : ℚ)
    (hd : 0 < d) (hsp : 0 < sp) (hr : r ≤ 100) :
    ∀ (n l : ℕ) (cum : ℚ), 99 ≤ l →
      (optionsLoop d m sp r n l cum).Pairwise (fun a b => a.t < b.t)
  | 0, _, _, _ => List.Pairwise.nil
  | n + 1, l, cum, hl => by
    simp only [optionsLoop]
    refine List.pairwise_cons.mpr ⟨?_, optionsLoop_pairwise_t d m sp r hd hsp hr n (l + 10) _ (by omega)⟩
    intro x hx
    have ih := optionsLoop_mem d m sp r hd hsp hr n (l + 10)
      (cum + getStepCost l d sp r) (by omega) x hx
    have hstep : 0 < getStepCost (l + 10) d sp r := getStepCost_pos _ d sp r hd hsp hr
    show cum + getStepCost l d sp r < x.t
    linarith [ih.1]

theorem optionsLoop_pairwise_level (d : ℚ) (m : Bool) (sp r : ℚ)
    (hd : 0 < d) (hsp : 0 < sp) (hr : r ≤ 100) :
    ∀ (n l : ℕ) (cum : ℚ), 99 ≤ l →
      (optionsLoop d m sp r n l cum).Pairwise (fun a b => a.level < b.level)
  | 0, _, _, _ => List.Pairwise.nil
  | n + 1, l, cum, hl => by
    simp only [optionsLoop]
    refine List.pairwise_cons.mpr
      ⟨?_, optionsLoop_pairwise_level d m sp r hd hsp hr n (l + 10) _ (by omega)⟩
    intro x hx
    have ih := optionsLoop_mem d m sp r hd hsp hr n (l + 10)
      (cum + getStepCost l d sp r) (by omega) x hx
    show l + 10 < x.level
    omega

theorem optionsLoop_pairwise_z_le (d : ℚ) (m : Bool) (sp r : ℚ)
    (hd : 0 < d) (hsp : 0 < sp) (hr : r ≤ 100) :
    ∀ (n l : ℕ) (cum : ℚ), 99 ≤ l →
      (optionsLoop d m sp r n l cum).Pairwise (fun a b => a.z ≤ b.z)
  | 0, _, _, _ => List.Pairwise.nil
  | n + 1, l, cum, hl => by
    simp only [optionsLoop]
    refine List.pairwise_cons.mpr
      ⟨?_, optionsLoop_pairwise_z_le d m sp r hd hsp hr n (l + 10) _ (by omega)⟩
    intro x hx
    have ih := optionsLoop_mem d m sp r hd hsp hr n (l + 10)
      (cum + getStepCost l d sp r) (by omega) x hx
    show getZhenyuan (l + 10) d m ≤ x.z
    exact le_trans (getZhenyuan_mono d m hd.le (by omega)) ih.2.1

theorem optionsLoop_pairwise_z_lt (d : ℚ) (m : Bool) (sp r : ℚ)
    (hd : 1 ≤ d) (hsp : 0 < sp) (hr : r ≤ 100) :
    ∀ (n l : ℕ) (cum : ℚ), 99 ≤ l →
      (optionsLoop d m sp r n l cum).Pairwise (fun a b => a.z < b.z)
  | 0, _, _, _ => List.Pairwise.nil
  | n + 1, l, cum, hl => by
    have hd0 : (0:ℚ) < d := by linarith
    simp only [optionsLoop]
    refine List.pairwise_cons.mpr
      ⟨?_, optionsLoop_pairwise_z_lt d m sp r hd hsp hr n (l + 10) _ (by omega)⟩
    intro x hx
    have ih := optionsLoop_mem d m sp r hd0 hsp hr n (l + 10)
      (cum + getStepCost l d sp r) (by omega) x hx
    show getZhenyuan (l + 10) d m < x.z
    have hgap := getZhenyuan_gap_one d m (l := l + 10) (by omega) hd
    omega

/-! ### Closed form of the option curve (spec reading of the Curve Precomputer) -/

/-- Spec-side cumulative cost: the cost of the checkpoint `99 + 10*k` is the
sum of the step costs of all spans below it (cumulative, not per-span). -/
def specCumCost (d sp r : ℚ) : ℕ → ℚ
  | 0 => 0
  | k + 1 => specCumCost d sp r k + getStepCost (99 + 10 * k) d sp r

/-- Spec-side Curve Precomputer: one option per level `99, 109, …, 499`
(inclusive), with value `value(level)` and cumulative cost. -/
def curveSpec (d : ℚ) (m : Bool) (sp r : ℚ) : List OptionPt :=
  (List.range 41).map (fun k =>
    ⟨99 + 10 * k, getZhenyuan (99 + 10 * k) d m, specCumCost d sp r k⟩)

theorem optionsLoop_closed_form (d : ℚ) (m : Bool) (sp r : ℚ) :
    ∀ (n j : ℕ),
      optionsLoop d m sp r n (99 + 10 * j) (specCumCost d sp r j) =
        (List.range n).map (fun k =>
          ⟨99 + 10 * (j + k + 1), getZhenyuan (99 + 10 * (j + k + 1)) d m,
            specCumCost d sp r (j + k + 1)⟩)
  | 0, _ => rfl
  | n + 1, j => by
    rw [List.range_succ_eq_map]
    simp only [optionsLoop, List.map_cons, List.map_map]
    have ht : optionsLoop d m sp r n (99 + 10 * j + 10)
          (specCumCost d sp r j + getStepCost (99 + 10 * j) d sp r)
        = optionsLoop d m sp r n (99 + 10 * (j + 1)) (specCumCost d sp r (j + 1)) := rfl
    rw [ht, optionsLoop_closed_form d m sp r n (j + 1)]
    refine congrArg₂ List.cons rfl ?_
    apply List.map_congr_left
    intro k _
    simp only [Function.comp_apply]
    have harg : j + 1 + k + 1 = j + (k + 1) + 1 := by omega
    rw [harg]

theorem instanceOptions_eq_curveSpec (d : ℚ) (m : Bool) (sp r : ℚ) :
    instanceOptions d m sp r = curveSpec d m sp r := by
  unfold instanceOptions curveSpec
  rw [show (41 : ℕ) = 40 + 1 from rfl, List.range_succ_eq_map]
  simp only [List.map_cons, List.map_map]
  have h0 : optionsLoop d m sp r 40 99 0
      = optionsLoop d m sp r 40 (99 + 10 * 0) (specCumCost d sp r 0) := rfl
  rw [h0, optionsLoop_closed_form d m sp r 40 0]
  refine congrArg₂ List.cons rfl ?_
  apply List.map_congr_left
  intro k _
  simp only [Function.comp_apply]
  have h1 : 0 + k + 1 = k + 1 := by omega
  rw [h1]

/-! ### Properties of the prune loop -/

theorem ltMin_none (t : ℚ) : ltMin t none = true := rfl

theorem ltMin_some {t x : ℚ} : ltMin t (some x) = true ↔ t < x := by
  simp [ltMin]

theorem pruneAux_sublist : ∀ (l : List DPState) (m : Option ℚ) (s : Finset ℤ),
    (pruneAux l m s).Sublist l
  | [], _, _ => List.Sublist.refl _
  | x :: rest, m, s => by
    simp only [pruneAux]
    split
    · split
      · exact (pruneAux_sublist rest m s).cons x
      · exact (pruneAux_sublist rest (some x.t) _).cons₂ x
    · exact (pruneAux_sublist rest m s).cons x

theorem ltMin_trans {x y : DPState} {m : Option ℚ} (hy : ltMin y.t m = true)
    (hxy : x.t < y.t) : ltMin x.t m = true := by
  cases m with
  | none => rfl
  | some mv =>
    rw [ltMin_some] at hy ⊢
    linarith

theorem pruneAux_mem_le : ∀ (l : List DPState) (m : Option ℚ) (s : Finset ℤ),
    ∀ x ∈ pruneAux l m s, ltMin x.t m = true
  | [], _, _ => by simp [pruneAux]
  | y :: rest, m, s => by
    simp only [pruneAux]
    split
    · split
      · exact pruneAux_mem_le rest m s
      · intro x hx
        rcases List.mem_cons.mp hx with rfl | hx
        · assumption
        · have h1 := pruneAux_mem_le rest (some y.t) _ x hx
          exact ltMin_trans (by assumption) (ltMin_some.mp h1)
    · exact pruneAux_mem_le rest m s

theorem pruneAux_pairwise_t : ∀ (l : List DPState) (m : Option ℚ) (s : Finset ℤ),
    (pruneAux l m s).Pairwise (fun a b => b.t < a.t)
  | [], _, _ => List.Pairwise.nil
  | y :: rest, m, s => by
    simp only [pruneAux]
    split
    · split
      · exact pruneAux_pairwise_t rest m s
      · refine List.pairwise_cons.mpr ⟨?_, pruneAux_pairwise_t rest (some y.t) _⟩
        intro x hx
        exact ltMin_some.mp (pruneAux_mem_le rest (some y.t) _ x hx)
    · exact pruneAux_pairwise_t rest m s

theorem pruneAux_mem_bucket : ∀ (l : List DPState) (m : Option ℚ) (s : Finset ℤ),
    ∀ x ∈ pruneAux l m s, bucketOfS x ∉ s
  | [], _, _ => by simp [pruneAux]
  | y :: rest, m, s => by
    simp only [pruneAux]
    split
    · split
      · exact pruneAux_mem_bucket rest m s
      · intro x hx
        rcases List.mem_cons.mp hx with rfl | hx
        · assumption
        · have h1 := pruneAux_mem_bucket rest (some y.t) _ x hx
          intro hmem
          exact h1 (Finset.mem_insert_of_mem hmem)
    · exact pruneAux_mem_bucket rest m s

theorem pruneAux_pairwise_bucket : ∀ (l : List DPState) (m : Option ℚ) (s : Finset ℤ),
    (pruneAux l m s).Pairwise (fun a b => bucketOfS a ≠ bucketOfS b)
  | [], _, _ => List.Pairwise.nil
  | y :: rest, m, s => by
    simp only [pruneAux]
    split
    · split
      · exact pruneAux_pairwise_bucket rest m s
      · refine List.pairwise_cons.mpr ⟨?_, pruneAux_pairwise_bucket rest (some y.t) _⟩
        intro x hx heq
        have h1 := pruneAux_mem_bucket rest (some y.t) _ x hx
        exact h1 (heq ▸ Finset.mem_insert_self _ _)
    · exact pruneAux_pairwise_bucket rest m s

/-- Continuation threshold after having kept the states in `k`: the last kept
state's time (the kept times decrease, so this is their minimum), or the
incoming threshold when nothing was kept. -/
def contMin (m : Option ℚ) (k : List DPState) : Option ℚ :=
  match k.getLast? with
  | some b => some b.t
  | none => m

/-- The buckets represented by the kept states `k`. -/
def bucketsOf (k : List DPState) : Finset ℤ := (k.map bucketOfS).toFinset

theorem contMin_cons (m : Option ℚ) (y : DPState) (k : List DPState) :
    contMin m (y :: k) = contMin (some y.t) k := by
  unfold contMin
  cases k with
  | nil => rfl
  | cons a k' =>
    rw [List.getLast?_cons_cons]
    cases h : (a :: k').getLast? with
    | none => simp at h
    | some b => rfl

theorem bucketsOf_cons (y : DPState) (k : List DPState) (s : Finset ℤ) :
    s ∪ bucketsOf (y :: k) = insert (bucketOfS y) s ∪ bucketsOf k := by
  unfold bucketsOf
  ext b
  simp only [Finset.mem_union, Finset.mem_insert, List.map_cons, List.mem_toFinset,
    List.mem_cons]
  tauto

theorem pruneAux_append : ∀ (l₁ l₂ : List DPState) (m : Option ℚ) (s : Finset ℤ),
    pruneAux (l₁ ++ l₂) m s =
      pruneAux l₁ m s ++
        pruneAux l₂ (contMin m (pruneAux l₁ m s)) (s ∪ bucketsOf (pruneAux l₁ m s))
  | [], l₂, m, s => by simp [pruneAux, contMin, bucketsOf]
  | y :: rest, l₂, m, s => by
    have hcons : (y :: rest) ++ l₂ = y :: (rest ++ l₂) := rfl
    rw [hcons]
    simp only [pruneAux]
    split
    · split
      · exact pruneAux_append rest l₂ m s
      · rw [pruneAux_append rest l₂ (some y.t) _]
        rw [contMin_cons, bucketsOf_cons]
        rfl
    · exact pruneAux_append rest l₂ m s

/-! ### Merge-step invariants -/

theorem bucketOf_eq_of_z_eq {a b : DPState} (h : a.z = b.z) : bucketOfS a = bucketOfS b := by
  unfold bucketOfS
  rw [h]

theorem prune_pairwise_strict {l : List DPState} (hs : l.Pairwise zDesc) :
    (prune l).Pairwise (fun a b => b.z < a.z ∧ b.t < a.t) := by
  have h1 : (prune l).Pairwise zDesc := List.Pairwise.sublist (pruneAux_sublist l none ∅) hs
  have h2 := pruneAux_pairwise_bucket l none ∅
  have h3 := pruneAux_pairwise_t l none ∅
  refine ((h1.and h2).and h3).imp ?_
  rintro a b ⟨⟨hz, hb⟩, ht⟩
  refine ⟨lt_of_le_of_ne hz ?_, ht⟩
  intro heq
  exact hb (bucketOf_eq_of_z_eq heq.symm)

theorem mergeStep_pairwise (i : ℕ) (o : List OptionPt) (F : List DPState) :
    (mergeStep i o F).Pairwise (fun a b => b.z < a.z ∧ b.t < a.t) :=
  prune_pairwise_strict (List.sorted_insertionSort zDesc _)

theorem mergeStep_pairwise_bucket (i : ℕ) (o : List OptionPt) (F : List DPState) :
    (mergeStep i o F).Pairwise (fun a b => bucketOfS a ≠ bucketOfS b) :=
  pruneAux_pairwise_bucket _ none ∅

theorem mergeStep_mem_expand {i : ℕ} {o : List OptionPt} {F : List DPState} {x : DPState}
    (hx : x ∈ mergeStep i o F) : x ∈ expandStep i o F := by
  have h1 : x ∈ List.insertionSort zDesc (expandStep i o F) :=
    (pruneAux_sublist _ none ∅).mem hx
  exact (List.mem_insertionSort zDesc).mp h1

theorem prune_cons (y : DPState) (rest : List DPState) :
    prune (y :: rest) = y :: pruneAux rest (some y.t) {bucketOfS y} := by
  unfold prune
  simp only [pruneAux, ltMin_none, if_true, Finset.not_mem_empty, if_false, if_neg
    (Finset.not_mem_empty _)]
  rfl

theorem mergeStep_ne_nil {i : ℕ} {o : List OptionPt} {F : List DPState}
    (hF : F ≠ []) (ho : o ≠ []) : mergeStep i o F ≠ [] := by
  unfold mergeStep
  obtain ⟨f, F', rfl⟩ := List.exists_cons_of_ne_nil hF
  obtain ⟨p, o', rfl⟩ := List.exists_cons_of_ne_nil ho
  have hmem : (⟨f.z + (p.z - headZ (p :: o')), f.t + p.t, f.choices.set i p.level⟩ : DPState)
      ∈ expandStep i (p :: o') (f :: F') := by
    unfold expandStep
    refine List.mem_flatMap.mpr ⟨f, List.mem_cons_self f F', ?_⟩
    exact List.mem_map.mpr ⟨p, List.mem_cons_self p o', rfl⟩
  have hne : List.insertionSort zDesc (expandStep i (p :: o') (f :: F')) ≠ [] := by
    intro h
    have := (List.mem_insertionSort zDesc).mpr hmem
    rw [h] at this
    exact List.not_mem_nil _ this
  obtain ⟨y, rest, heq⟩ := List.exists_cons_of_ne_nil hne
  rw [heq, prune_cons]
  exact List.cons_ne_nil _ _

theorem runMergeFrom_pairwise : ∀ (l : List (List OptionPt)) (i : ℕ) (F : List DPState),
    F.Pairwise (fun a b => b.z < a.z ∧ b.t < a.t) →
    (runMergeFrom i l F).Pairwise (fun a b => b.z < a.z ∧ b.t < a.t)
  | [], _, _, hF => hF
  | o :: rest, i, F, _ =>
    runMergeFrom_pairwise rest (i + 1) (mergeStep i o F) (mergeStep_pairwise i o F)

theorem runMergeFrom_pairwise_bucket :
    ∀ (l : List (List OptionPt)) (i : ℕ) (F : List DPState),
      F.Pairwise (fun a b => bucketOfS a ≠ bucketOfS b) →
      (runMergeFrom i l F).Pairwise (fun a b => bucketOfS a ≠ bucketOfS b)
  | [], _, _, hF => hF
  | o :: rest, i, F, _ =>
    runMergeFrom_pairwise_bucket rest (i + 1) (mergeStep i o F) (mergeStep_pairwise_bucket i o F)

theorem runMergeFrom_ne_nil : ∀ (l : List (List OptionPt)) (i : ℕ) (F : List DPState),
    (∀ o ∈ l, o ≠ []) → F ≠ [] → runMergeFrom i l F ≠ []
  | [], _, _, _, hF => hF
  | o :: rest, i, F, hl, hF =>
    runMergeFrom_ne_nil rest (i + 1) (mergeStep i o F)
      (fun o' ho' => hl o' (List.mem_cons_of_mem _ ho'))
      (mergeStep_ne_nil hF (hl o (List.mem_cons_self _ _)))

/-- The last state of a time-descending list has the minimum time. -/
theorem getLast_min_t : ∀ {F : List DPState},
    F.Pairwise (fun a b => b.t < a.t) →
    ∀ {b : DPState}, F.getLast? = some b → ∀ s ∈ F, b.t ≤ s.t := by
  intro F
  induction F with
  | nil => intro _ b hb; simp at hb
  | cons y rest ih =>
    intro hp b hb s hs
    cases rest with
    | nil =>
      simp at hb
      rcases List.mem_singleton.mp hs with rfl
      rw [hb]
    | cons a rest' =>
      rw [List.getLast?_cons_cons] at hb
      have hp' := List.pairwise_cons.mp hp
      rcases List.mem_cons.mp hs with rfl | hs'
      · have hbmem : b ∈ a :: rest' := by
          exact List.mem_of_getLast?_eq_some hb
        exact le_of_lt (hp'.1 b hbmem)
      · exact ih hp'.2 hb s hs'

/-! ### Selector lemmas -/

theorem selectZLoop_mem : ∀ (F : List DPState) (base : ℤ) (target : ℚ) (acc : Option DPState)
    (b : DPState), selectZLoop base target F acc = some b → b ∈ F ∨ acc = some b
  | [], _, _, acc, b => fun h => Or.inr h
  | s :: rest, base, target, acc, b => by
    simp only [selectZLoop]
    split
    · intro h
      rcases selectZLoop_mem rest base target (some s) b h with hmem | hacc
      · exact Or.inl (List.mem_cons_of_mem _ hmem)
      · exact Or.inl (Option.some_inj.mp hacc ▸ List.mem_cons_self _ _)
    · intro h
      exact Or.inr h

theorem selectZ_mem {F : List DPState} {base : ℤ} {target : ℚ} {b : DPState}
    (h : selectZ base target F = some b) : b ∈ F := by
  unfold selectZ at h
  split at h
  · rename_i b' hb'
    rcases selectZLoop_mem F base target none b' hb' with hmem | hacc
    · exact (Option.some_inj.mp h) ▸ hmem
    · simp at hacc
  · exact List.mem_of_mem_head? (Option.mem_def.mpr h)

theorem selectZ_some {F : List DPState} (base : ℤ) (target : ℚ) (hF : F ≠ []) :
    ∃ b, selectZ base target F = some b := by
  unfold selectZ
  split
  · exact ⟨_, rfl⟩
  · obtain ⟨y, rest, rfl⟩ := List.exists_cons_of_ne_nil hF
    exact ⟨y, rfl⟩

theorem selectZLoop_all_true : ∀ (F : List DPState) (base : ℤ) (target : ℚ)
    (acc : Option DPState), F ≠ [] →
    (∀ s ∈ F, target ≤ ((s.z + base : ℤ) : ℚ)) →
    selectZLoop base target F acc = F.getLast?
  | [], _, _, _, hne, _ => absurd rfl hne
  | s :: rest, base, target, acc, _, hall => by
    simp only [selectZLoop, if_pos (hall s (List.mem_cons_self _ _))]
    cases rest with
    | nil => rfl
    | cons a rest' =>
      rw [List.getLast?_cons_cons]
      exact selectZLoop_all_true (a :: rest') base target (some s) (List.cons_ne_nil _ _)
        (fun x hx => hall x (List.mem_cons_of_mem _ hx))

theorem selectTLoop_eq_find (target : ℚ) :
    ∀ (F : List DPState), selectTLoop target F = F.find? (fun s => decide (s.t ≤ target))
  | [] => rfl
  | s :: rest => by
    simp only [selectTLoop, List.find?]
    by_cases h : s.t ≤ target
    · simp [h]
    · simp only [if_neg h]
      rw [selectTLoop_eq_find target rest]
      have : (decide (s.t ≤ target)) = false := by simp [h]
      rw [this]

theorem selectTLoop_first : ∀ (F : List DPState) (target : ℚ) (b : DPState),
    selectTLoop target F = some b →
    b ∈ F ∧ b.t ≤ target ∧
      (F.Pairwise (fun a b => b.z < a.z ∧ b.t < a.t) →
        ∀ s ∈ F, s.t ≤ target → s.z ≤ b.z)
  | [], _, b => by simp [selectTLoop]
  | s :: rest, target, b => by
    simp only [selectTLoop]
    split
    · intro h
      rcases Option.some_inj.mp h
      refine ⟨List.mem_cons_self _ _, by assumption, ?_⟩
      intro hp x hx _
      rcases List.mem_cons.mp hx with rfl | hx'
      · exact le_refl _
      · exact le_of_lt ((List.pairwise_cons.mp hp).1 x hx').1
    · intro h
      have ih := selectTLoop_first rest target b h
      refine ⟨List.mem_cons_of_mem _ ih.1, ih.2.1, ?_⟩
      intro hp x hx hxt
      rcases List.mem_cons.mp hx with rfl | hx'
      · exact absurd hxt (by assumption)
      · exact ih.2.2 (List.pairwise_cons.mp hp).2 x hx' hxt

theorem selectTLoop_none : ∀ (F : List DPState) (target : ℚ),
    selectTLoop target F = none → ∀ s ∈ F, ¬ s.t ≤ target
  | [], _, _ => by simp
  | s :: rest, target, h => by
    simp only [selectTLoop] at h
    split at h
    · exact absurd h (by simp)
    · intro x hx
      rcases List.mem_cons.mp hx with rfl | hx'
      · assumption
      · exact selectTLoop_none rest target h x hx'

/-! ### Achievable values and the bucket bound -/

/-- The value deltas offered by one instance's option list. -/
def deltasOf (opts : List OptionPt) : List ℤ := opts.map (fun o => o.z - headZ opts)

/-- Extend a set of achievable deltas by one instance's choices. -/
def extendA (A : List ℤ) (opts : List OptionPt) : List ℤ :=
  A.flatMap (fun z => (deltasOf opts).map (fun d0 => z + d0))

/-- All aggregate value deltas achievable by choosing one option per instance
of `l`, starting from the achievable set `A`. -/
def achievableFrom (A : List ℤ) (l : List (List OptionPt)) : List ℤ :=
  l.foldl extendA A

def maxOf : List ℤ → ℤ
  | [] => 0
  | [x] => x
  | x :: y :: rest => max x (maxOf (y :: rest))

def minOf : List ℤ → ℤ
  | [] => 0
  | [x] => x
  | x :: y :: rest => min x (minOf (y :: rest))

/-- The number of width-100 buckets spanning the range of the values in `A`. -/
def bucketSpan (A : List ℤ) : ℕ :=
  (maxOf (A.map bucketOf) - minOf (A.map bucketOf) + 1).toNat

theorem le_maxOf : ∀ (l : List ℤ) (x : ℤ), x ∈ l → x ≤ maxOf l
  | [], x, hx => absurd hx (List.not_mem_nil x)
  | [y], x, hx => by
    rcases List.mem_singleton.mp hx with rfl
    exact le_refl _
  | y :: z :: rest, x, hx => by
    rcases List.mem_cons.mp hx with rfl | hx'
    · exact le_max_left _ _
    · exact le_trans (le_maxOf (z :: rest) x hx') (le_max_right _ _)

theorem minOf_le : ∀ (l : List ℤ) (x : ℤ), x ∈ l → minOf l ≤ x
  | [], x, hx => absurd hx (List.not_mem_nil x)
  | [y], x, hx => by
    rcases List.mem_singleton.mp hx with rfl
    exact le_refl _
  | y :: z :: rest, x, hx => by
    rcases List.mem_cons.mp hx with rfl | hx'
    · exact min_le_left _ _
    · exact le_trans (min_le_right _ _) (minOf_le (z :: rest) x hx')

theorem expandStep_z_mem {i : ℕ} {o : List OptionPt} {F : List DPState} {A : List ℤ}
    (hF : ∀ s ∈ F, s.z ∈ A) :
    ∀ x ∈ expandStep i o F, x.z ∈ extendA A o := by
  intro x hx
  unfold expandStep at hx
  obtain ⟨s, hs, hx'⟩ := List.mem_flatMap.mp hx
  obtain ⟨p, hp, rfl⟩ := List.mem_map.mp hx'
  unfold extendA
  refine List.mem_flatMap.mpr ⟨s.z, hF s hs, ?_⟩
  exact List.mem_map.mpr ⟨p.z - headZ o, List.mem_map.mpr ⟨p, hp, rfl⟩, rfl⟩

theorem runMergeFrom_z_achievable :
    ∀ (l : List (List OptionPt)) (i : ℕ) (F : List DPState) (A : List ℤ),
      (∀ s ∈ F, s.z ∈ A) →
      ∀ x ∈ runMergeFrom i l F, x.z ∈ achievableFrom A l
  | [], _, _, _, hF => hF
  | o :: rest, i, F, A, hF => by
    intro x hx
    have hstep : ∀ s ∈ mergeStep i o F, s.z ∈ extendA A o := by
      intro s hs
      exact expandStep_z_mem hF s (mergeStep_mem_expand hs)
    exact runMergeFrom_z_achievable rest (i + 1) (mergeStep i o F) (extendA A o) hstep x hx

theorem length_le_bucketSpan {F : List DPState} {A : List ℤ}
    (hp : F.Pairwise (fun a b => bucketOfS a ≠ bucketOfS b))
    (hmem : ∀ s ∈ F, s.z ∈ A) : F.length ≤ bucketSpan A := by
  classical
  have hnodup : (F.map bucketOfS).Nodup := by
    apply List.pairwise_map.mpr
    exact hp
  have hsub : (F.map bucketOfS).toFinset ⊆
      Finset.Icc (minOf (A.map bucketOf)) (maxOf (A.map bucketOf)) := by
    intro b hb
    rw [List.mem_toFinset] at hb
    obtain ⟨s, hs, rfl⟩ := List.mem_map.mp hb
    have hzA : bucketOf s.z ∈ A.map bucketOf := List.mem_map.mpr ⟨s.z, hmem s hs, rfl⟩
    exact Finset.mem_Icc.mpr ⟨minOf_le _ _ hzA, le_maxOf _ _ hzA⟩
  calc F.length = (F.map bucketOfS).length := (List.length_map _ _).symm
    _ = (F.map bucketOfS).toFinset.card := (List.toFinset_card_of_nodup hnodup).symm
    _ ≤ (Finset.Icc (minOf (A.map bucketOf)) (maxOf (A.map bucketOf))).card :=
        Finset.card_le_card hsub
    _ = bucketSpan A := by rw [Int.card_Icc]; unfold bucketSpan; omega

/-! ### Nonnegativity invariants -/

/-- A well-formed option list: every option's value is at least the base
value and every option's time is nonnegative. -/
def optionsOK (o : List OptionPt) : Prop := ∀ p ∈ o, headZ o ≤ p.z ∧ 0 ≤ p.t

def stateOK (s : DPState) : Prop := 0 ≤ s.z ∧ 0 ≤ s.t

theorem instanceOptions_OK (d : ℚ) (m : Bool) (sp r : ℚ)
    (hd : 0 < d) (hsp : 0 < sp) (hr : r ≤ 100) :
    optionsOK (instanceOptions d m sp r) := by
  intro p hp
  have hhead : headZ (instanceOptions d m sp r) = getZhenyuan 99 d m := rfl
  rw [hhead]
  rcases List.mem_cons.mp hp with rfl | hp'
  · exact ⟨le_refl _, le_refl _⟩
  · have h := optionsLoop_mem d m sp r hd hsp hr 40 99 0 (le_refl 99) p hp'
    have hstep : 0 < getStepCost 99 d sp r := getStepCost_pos _ d sp r hd hsp hr
    exact ⟨le_trans (getZhenyuan_mono d m hd.le (by omega)) h.2.1, by linarith [h.1]⟩

theorem expandStep_OK {i : ℕ} {o : List OptionPt} {F : List DPState}
    (ho : optionsOK o) (hF : ∀ s ∈ F, stateOK s) :
    ∀ x ∈ expandStep i o F, stateOK x := by
  intro x hx
  unfold expandStep at hx
  obtain ⟨s, hs, hx'⟩ := List.mem_flatMap.mp hx
  obtain ⟨p, hp, rfl⟩ := List.mem_map.mp hx'
  obtain ⟨hz, ht⟩ := hF s hs
  obtain ⟨hpz, hpt⟩ := ho p hp
  exact ⟨by simp only; omega, by simp only; linarith⟩

theorem runMergeFrom_OK : ∀ (l : List (List OptionPt)) (i : ℕ) (F : List DPState),
    (∀ o ∈ l, optionsOK o) → (∀ s ∈ F, stateOK s) →
    ∀ x ∈ runMergeFrom i l F, stateOK x
  | [], _, _, _, hF => hF
  | o :: rest, i, F, hl, hF => by
    have hstep : ∀ x ∈ mergeStep i o F, stateOK x := fun x hx =>
      expandStep_OK (hl o (List.mem_cons_self _ _)) hF x (mergeStep_mem_expand hx)
    exact runMergeFrom_OK rest (i + 1) (mergeStep i o F)
      (fun o' ho' => hl o' (List.mem_cons_of_mem _ ho')) hstep

theorem instOptsOf_OK {arts : List ItemSpec} {st : Settings}
    (hd : ∀ a ∈ arts, 0 < a.difficulty) (hsp : 0 < st.speed) (hr : st.reduction ≤ 100) :
    ∀ o ∈ instOptsOf arts st, optionsOK o := by
  intro o ho
  unfold instOptsOf at ho
  obtain ⟨inst, hinst, rfl⟩ := List.mem_map.mp ho
  unfold expandInstances at hinst
  obtain ⟨a, ha, hinst'⟩ := List.mem_flatMap.mp hinst
  obtain ⟨j, _, rfl⟩ := List.mem_map.mp hinst'
  exact instanceOptions_OK _ _ _ _ (hd a ha) hsp hr

theorem instOptsOf_ne_nil (arts : List ItemSpec) (st : Settings) :
    ∀ o ∈ instOptsOf arts st, o ≠ [] := by
  intro o ho
  unfold instOptsOf at ho
  obtain ⟨inst, _, rfl⟩ := List.mem_map.mp ho
  exact List.cons_ne_nil _ _

/-! ### The baseline state survives the merge step (under wide value gaps) -/

theorem bucketOf_zero : bucketOf 0 = 0 := by
  unfold bucketOf
  norm_num

theorem bucketOf_ge_one {z : ℤ} (h : 100 ≤ z) : 1 ≤ bucketOf z := by
  unfold bucketOf
  rw [Int.le_floor]
  rw [le_div_iff (by norm_num : (0:ℚ) < 100)]
  have hc : (100:ℚ) ≤ (z:ℚ) := by exact_mod_cast h
  push_cast
  linarith

theorem sorted_split_last : ∀ (S : List DPState), S.Pairwise zDesc →
    ∀ b : DPState, b ∈ S → (∀ x ∈ S, x = b ∨ b.z < x.z) → S.count b = 1 →
    ∃ S', S = S' ++ [b] ∧ b ∉ S'
  | [], _, b, hb, _, _ => absurd hb (List.not_mem_nil b)
  | y :: rest, hp, b, hb, hall, hcount => by
    by_cases hyb : y = b
    · subst hyb
      have hrest : y ∉ rest := by
        have h1 : List.count y (y :: rest) = List.count y rest + 1 := List.count_cons_self _ _
        rw [hcount] at h1
        exact List.count_eq_zero.mp (by omega)
      have hnil : rest = [] := by
        rw [List.eq_nil_iff_forall_not_mem]
        intro x hx
        rcases hall x (List.mem_cons_of_mem _ hx) with rfl | hlt
        · exact hrest hx
        · have hz : zDesc y x := (List.pairwise_cons.mp hp).1 x hx
          exact absurd hlt (not_lt.mpr hz)
      exact ⟨[], by rw [hnil]; rfl, List.not_mem_nil _⟩
    · have hbrest : b ∈ rest := by
        rcases List.mem_cons.mp hb with rfl | h
        · exact absurd rfl hyb
        · exact h
      have hcount' : rest.count b = 1 := by
        have hc := List.count_cons b y rest
        rw [hcount] at hc
        simp only [beq_iff_eq] at hc
        rw [if_neg hyb] at hc
        omega
      obtain ⟨S'', heq, hbn⟩ := sorted_split_last rest (List.pairwise_cons.mp hp).2 b hbrest
        (fun x hx => hall x (List.mem_cons_of_mem _ hx)) hcount'
      refine ⟨y :: S'', by rw [heq]; rfl, ?_⟩
      intro hmem
      rcases List.mem_cons.mp hmem with rfl | h
      · exact hyb rfl
      · exact hbn h

theorem OptResult_eq {z₁ z₂ : ℤ} {t₁ t₂ : ℚ} {a₁ a₂ : List (String × ℕ)}
    (hz : z₁ = z₂) (ht : t₁ = t₂) (ha : a₁ = a₂) :
    (⟨z₁, t₁, a₁⟩ : OptResult) = ⟨z₂, t₂, a₂⟩ := by
  subst hz
  subst ht
  subst ha
  rfl

theorem DPState_eq {z₁ z₂ : ℤ} {t₁ t₂ : ℚ} {c₁ c₂ : List ℕ}
    (hz : z₁ = z₂) (ht : t₁ = t₂) (hc : c₁ = c₂) :
    (⟨z₁, t₁, c₁⟩ : DPState) = ⟨z₂, t₂, c₂⟩ := by
  subst hz
  subst ht
  subst hc
  rfl

theorem prune_append (l₁ l₂ : List DPState) :
    prune (l₁ ++ l₂) =
      prune l₁ ++ pruneAux l₂ (contMin none (prune l₁)) (∅ ∪ bucketsOf (prune l₁)) :=
  pruneAux_append l₁ l₂ none ∅

/-- If the baseline frontier state `⟨0, 0, c⟩` sits at the end of the frontier,
every other frontier state has `z ≥ 100` and positive time, and the instance's
options consist of a zero-cost base option followed by options with value gaps
of at least 100 and positive times, then the merge step keeps the baseline
state at the end of the new frontier. -/
theorem mergeStep_baseline (i : ℕ) (o₀ : OptionPt) (R : List OptionPt)
    (F' : List DPState) (c : List ℕ)
    (ho₀t : o₀.t = 0)
    (hR : ∀ p ∈ R, 100 ≤ p.z - o₀.z ∧ 0 < p.t)
    (hF' : ∀ x ∈ F', 100 ≤ x.z ∧ 0 < x.t) :
    ∃ F'', mergeStep i (o₀ :: R) (F' ++ [⟨0, 0, c⟩]) = F'' ++ [⟨0, 0, c.set i o₀.level⟩] ∧
      ∀ x ∈ F'', 100 ≤ x.z ∧ 0 < x.t := by
  classical
  set b : DPState := ⟨0, 0, c⟩ with hbdef
  set bc : DPState := ⟨0, 0, c.set i o₀.level⟩ with hbcdef
  have hheadZ : headZ (o₀ :: R) = o₀.z := rfl
  -- the expand phase: candidates from F' and the candidates of b
  have hmap_b : List.map (fun o => (⟨b.z + (o.z - headZ (o₀ :: R)), b.t + o.t,
        b.choices.set i o.level⟩ : DPState)) (o₀ :: R)
      = bc :: R.map (fun p => ⟨p.z - o₀.z, p.t, c.set i p.level⟩) := by
    rw [List.map_cons]
    refine congrArg₂ List.cons ?_ ?_
    · exact DPState_eq (by show (0:ℤ) + (o₀.z - o₀.z) = 0; omega)
        (by show (0:ℚ) + o₀.t = 0; rw [ho₀t]; norm_num) rfl
    · apply List.map_congr_left
      intro p _
      exact DPState_eq (by show (0:ℤ) + (p.z - o₀.z) = p.z - o₀.z; omega)
        (by show (0:ℚ) + p.t = p.t; norm_num) rfl
  have hexp : expandStep i (o₀ :: R) (F' ++ [b]) =
      expandStep i (o₀ :: R) F' ++
        (bc :: R.map (fun p => ⟨p.z - o₀.z, p.t, c.set i p.level⟩)) := by
    unfold expandStep
    rw [List.flatMap_append]
    congr 1
    simp only [List.flatMap_cons, List.flatMap_nil, List.append_nil]
    exact hmap_b
  -- every non-baseline candidate has z ≥ 100 and positive time
  have hopt_all : ∀ p ∈ o₀ :: R, 0 ≤ p.z - o₀.z ∧ 0 ≤ p.t := by
    intro p hp
    rcases List.mem_cons.mp hp with rfl | hp'
    · exact ⟨by omega, by rw [ho₀t]⟩
    · obtain ⟨h1, h2⟩ := hR p hp'
      exact ⟨by omega, le_of_lt h2⟩
  have hC₁ : ∀ x ∈ expandStep i (o₀ :: R) F', 100 ≤ x.z ∧ 0 < x.t := by
    intro x hx
    unfold expandStep at hx
    obtain ⟨s, hs, hx'⟩ := List.mem_flatMap.mp hx
    obtain ⟨p, hp, rfl⟩ := List.mem_map.mp hx'
    obtain ⟨hsz, hst⟩ := hF' s hs
    obtain ⟨hpz, hpt⟩ := hopt_all p hp
    rw [hheadZ] at *
    exact ⟨by simp only; omega, by simp only; linarith⟩
  have hC₂ : ∀ x ∈ R.map (fun p => (⟨p.z - o₀.z, p.t, c.set i p.level⟩ : DPState)),
      100 ≤ x.z ∧ 0 < x.t := by
    intro x hx
    obtain ⟨p, hp, rfl⟩ := List.mem_map.mp hx
    obtain ⟨h1, h2⟩ := hR p hp
    exact ⟨h1, h2⟩
  -- sort: the baseline candidate is the unique minimum, hence last
  set E := expandStep i (o₀ :: R) (F' ++ [b]) with hEdef
  set S := List.insertionSort zDesc E with hSdef
  have hperm : S.Perm E := List.perm_insertionSort zDesc E
  have hmem_bc : bc ∈ S := by
    rw [hperm.mem_iff, hexp]
    exact List.mem_append_right _ (List.mem_cons_self _ _)
  have hother : ∀ x ∈ S, x = bc ∨ bc.z < x.z := by
    intro x hx
    rw [hperm.mem_iff, hexp] at hx
    rcases List.mem_append.mp hx with hx1 | hx2
    · exact Or.inr (by have := (hC₁ x hx1).1; simp only [hbcdef]; omega)
    · rcases List.mem_cons.mp hx2 with rfl | hx3
      · exact Or.inl rfl
      · exact Or.inr (by have := (hC₂ x hx3).1; simp only [hbcdef]; omega)
  have hcount : S.count bc = 1 := by
    rw [hperm.count_eq, hexp, List.count_append]
    have h1 : List.count bc (expandStep i (o₀ :: R) F') = 0 := by
      rw [List.count_eq_zero]
      intro hmem
      have := (hC₁ bc hmem).1
      simp only [hbcdef] at this
      omega
    have h2 : List.count bc (R.map (fun p => (⟨p.z - o₀.z, p.t, c.set i p.level⟩ : DPState))) = 0 := by
      rw [List.count_eq_zero]
      intro hmem
      have := (hC₂ bc hmem).1
      simp only [hbcdef] at this
      omega
    rw [h1, List.count_cons_self, h2]
  obtain ⟨S', hS', hbcS'⟩ := sorted_split_last S (List.sorted_insertionSort zDesc E) bc hmem_bc
    hother hcount
  -- members of the sorted prefix are non-baseline candidates
  have hS'P : ∀ x ∈ S', 100 ≤ x.z ∧ 0 < x.t := by
    intro x hx
    have hxS : x ∈ S := by rw [hS']; exact List.mem_append_left _ hx
    have hxne : x ≠ bc := fun h => hbcS' (h ▸ hx)
    rw [hperm.mem_iff, hexp] at hxS
    rcases List.mem_append.mp hxS with hx1 | hx2
    · exact hC₁ x hx1
    · rcases List.mem_cons.mp hx2 with rfl | hx3
      · exact absurd rfl hxne
      · exact hC₂ x hx3
  -- prune: the baseline candidate is kept last
  refine ⟨prune S', ?_, ?_⟩
  · show prune S = _
    rw [hS', prune_append]
    congr 1
    have hmlt : ltMin bc.t (contMin none (prune S')) = true := by
      unfold contMin
      cases hlast : (prune S').getLast? with
      | none => rfl
      | some x =>
        have hxmem : x ∈ prune S' := List.mem_of_getLast?_eq_some hlast
        have hxS' : x ∈ S' := (pruneAux_sublist S' none ∅).mem hxmem
        have := (hS'P x hxS').2
        rw [ltMin_some]
        simpa [hbcdef] using this
    have hbnot : bucketOfS bc ∉ (∅ ∪ bucketsOf (prune S') : Finset ℤ) := by
      rw [Finset.empty_union]
      unfold bucketsOf
      rw [List.mem_toFinset]
      intro hmem
      obtain ⟨x, hxmem, hxeq⟩ := List.mem_map.mp hmem
      have hxS' : x ∈ S' := (pruneAux_sublist S' none ∅).mem hxmem
      have h100 := (hS'P x hxS').1
      have hb1 := bucketOf_ge_one h100
      have : bucketOfS bc = 0 := by
        simp only [hbcdef, bucketOfS]
        exact bucketOf_zero
      rw [← hxeq] at this
      unfold bucketOfS at this hb1
      omega
    show _ = [bc]
    simp only [pruneAux]
    rw [if_pos hmlt, if_neg hbnot]
  · intro x hx
    exact hS'P x ((pruneAux_sublist S' none ∅).mem hx)

/-! ### Claim theorems -/

set_option maxRecDepth 100000 in
/-- C1 (counterexample): on a value-descending candidate list the kept
bucket representative need not be the first (highest-value) candidate of its
bucket: with candidates `(z,t) = (250,10), (150,20), (140,5)` the prune keeps
`(140,5)` for bucket 1 although `(150,20)` lies in bucket 1 before it with a
higher value — `(150,20)` is discarded by the time test without marking the
bucket. -/
theorem prune_bucket_rep_not_first :
    ([⟨250, 10, []⟩, ⟨150, 20, []⟩, ⟨140, 5, []⟩] : List DPState).Pairwise zDesc ∧
    ¬ (∀ s ∈ prune [⟨250, 10, []⟩, ⟨150, 20, []⟩, ⟨140, 5, []⟩],
        ∀ c ∈ ([⟨250, 10, []⟩, ⟨150, 20, []⟩, ⟨140, 5, []⟩] : List DPState),
          bucketOfS c = bucketOfS s → c.z ≤ s.z) := by
  with_unfolding_all decide

/-- C1 (amended): scanning candidates in value-descending order, a candidate
is kept only if its time is strictly below the minimum time among the
candidates kept so far (the threshold is determined by the kept states alone),
at most one candidate is kept per width-100 value bucket — namely the first
candidate of the bucket that passes the strict time test, not necessarily the
bucket's highest-value candidate —, a later candidate in an already-represented
bucket is discarded even if its time is lower, and a discarded candidate never
updates the threshold nor marks a bucket: the prune of `l₁ ++ l₂` continues
after `l₁` with exactly the kept states' minimum time and the kept states'
buckets. -/
theorem prune_phase_characterization (l₁ l₂ : List DPState) :
    prune (l₁ ++ l₂) =
      prune l₁ ++ pruneAux l₂ (contMin none (prune l₁)) (∅ ∪ bucketsOf (prune l₁)) ∧
    (∀ b, (prune l₁).getLast? = some b → ∀ s ∈ prune l₁, b.t ≤ s.t) ∧
    (prune (l₁ ++ l₂)).Sublist (l₁ ++ l₂) ∧
    (prune (l₁ ++ l₂)).Pairwise (fun a b => b.t < a.t) ∧
    (prune (l₁ ++ l₂)).Pairwise (fun a b => bucketOfS a ≠ bucketOfS b) :=
  ⟨prune_append l₁ l₂,
   fun _ hb => getLast_min_t (pruneAux_pairwise_t l₁ none ∅) hb,
   pruneAux_sublist _ none ∅,
   pruneAux_pairwise_t _ none ∅,
   pruneAux_pairwise_bucket _ none ∅⟩

set_option maxRecDepth 100000 in
/-- C2 (counterexample): a frontier produced by a merge step on a valid input
(one art, difficulty 2, primary, speed 1, reduction 0) has its second state at
strictly lower value AND strictly lower time than its first — time is *not*
strictly increasing as value decreases. -/
theorem frontier_time_increasing_cex :
    2 ≤ (prefixFrontier [⟨"a", 2, true, 1⟩] ⟨1, 0, TargetType.time, 0⟩ 1).length ∧
    ((prefixFrontier [⟨"a", 2, true, 1⟩] ⟨1, 0, TargetType.time, 0⟩ 1).getD 1 ⟨0, 0, []⟩).z <
      ((prefixFrontier [⟨"a", 2, true, 1⟩] ⟨1, 0, TargetType.time, 0⟩ 1).getD 0 ⟨0, 0, []⟩).z ∧
    ((prefixFrontier [⟨"a", 2, true, 1⟩] ⟨1, 0, TargetType.time, 0⟩ 1).getD 1 ⟨0, 0, []⟩).t <
      ((prefixFrontier [⟨"a", 2, true, 1⟩] ⟨1, 0, TargetType.time, 0⟩ 1).getD 0 ⟨0, 0, []⟩).t := by
  with_unfolding_all decide

/-- C2 (amended): every frontier produced by the merge fold (any prefix of
instances, any input) is strictly sorted by value descending, and its time is
strictly *decreasing* as value decreases (equivalently, time strictly
increases with value — the Pareto property; the spec's "time strictly
increasing as value decreases" describes dominated states and is refuted
above). -/
theorem frontier_value_desc_time_desc (arts : List ItemSpec) (st : Settings) (k : ℕ) :
    (prefixFrontier arts st k).Pairwise (fun a b => b.z < a.z ∧ b.t < a.t) := by
  unfold prefixFrontier
  apply runMergeFrom_pairwise
  unfold initFrontier
  exact List.pairwise_singleton _ _

set_option maxRecDepth 100000 in
/-- C3 (counterexample): with difficulty `1/1000` (a positive difficulty),
primary flag, speed 1, reduction 0, the first two options both have value 0 —
the option value is *not* strictly increasing in level (the floor collapses
small raw values). -/
theorem option_curve_value_not_strict_cex :
    2 ≤ (instanceOptions (1/1000) true 1 0).length ∧
    ((instanceOptions (1/1000) true 1 0).getD 1 ⟨0, 0, 0⟩).z ≤
      ((instanceOptions (1/1000) true 1 0).getD 0 ⟨0, 0, 0⟩).z := by
  with_unfolding_all decide

/-- C3 (amended): for every instance with positive difficulty, positive speed
and reduction in `[0,100]`, the option costs and levels are strictly
increasing and the option values are nondecreasing in level; the values are
strictly increasing provided the difficulty is at least 1 (for smaller
difficulties the floor can collapse consecutive values, as the counterexample
shows). -/
theorem option_curve_monotone (d : ℚ) (m : Bool) (sp r : ℚ)
    (hd : 0 < d) (hsp : 0 < sp) (hr0 : 0 ≤ r) (hr : r ≤ 100) :
    (instanceOptions d m sp r).Pairwise (fun a b => a.t < b.t) ∧
    (instanceOptions d m sp r).Pairwise (fun a b => a.level < b.level) ∧
    (instanceOptions d m sp r).Pairwise (fun a b => a.z ≤ b.z) ∧
    (1 ≤ d → (instanceOptions d m sp r).Pairwise (fun a b => a.z < b.z)) := by
  unfold instanceOptions
  have hmem := optionsLoop_mem d m sp r hd hsp hr 40 99 0 (le_refl 99)
  have hstep : 0 < getStepCost 99 d sp r := getStepCost_pos _ d sp r hd hsp hr
  refine ⟨?_, ?_, ?_, ?_⟩
  · refine List.pairwise_cons.mpr ⟨?_, optionsLoop_pairwise_t d m sp r hd hsp hr 40 99 0 (le_refl 99)⟩
    intro x hx
    show (0:ℚ) < x.t
    linarith [(hmem x hx).1]
  · refine List.pairwise_cons.mpr
      ⟨?_, optionsLoop_pairwise_level d m sp r hd hsp hr 40 99 0 (le_refl 99)⟩
    intro x hx
    show 99 < x.level
    have := (hmem x hx).2.2
    omega
  · refine List.pairwise_cons.mpr
      ⟨?_, optionsLoop_pairwise_z_le d m sp r hd hsp hr 40 99 0 (le_refl 99)⟩
    intro x hx
    show getZhenyuan 99 d m ≤ x.z
    exact le_trans (getZhenyuan_mono d m hd.le (by omega)) (hmem x hx).2.1
  · intro hd1
    refine List.pairwise_cons.mpr
      ⟨?_, optionsLoop_pairwise_z_lt d m sp r hd1 hsp hr 40 99 0 (le_refl 99)⟩
    intro x hx
    show getZhenyuan 99 d m < x.z
    have hgap := getZhenyuan_gap_one d m (l := 99) (le_refl 99) hd1
    have := (hmem x hx).2.1
    omega

/-- C3 (witness): the amended monotonicity instantiated at difficulty 1,
primary, speed 1, reduction 0. -/
theorem option_curve_monotone_witness :
    (instanceOptions 1 true 1 0).Pairwise (fun a b => a.t < b.t) ∧
    (instanceOptions 1 true 1 0).Pairwise (fun a b => a.level < b.level) ∧
    (instanceOptions 1 true 1 0).Pairwise (fun a b => a.z ≤ b.z) ∧
    ((1:ℚ) ≤ 1 → (instanceOptions 1 true 1 0).Pairwise (fun a b => a.z < b.z)) :=
  option_curve_monotone 1 true 1 0 (by norm_num) (by norm_num) (by norm_num) (by norm_num)

/-- C5: the Curve Precomputer produces exactly the options at levels
`99, 109, …, 499`, the first option is the zero-cost baseline
`⟨99, value(99), 0⟩`, and each option's cost is the cumulative sum of the
step costs of all spans below it (`curveSpec` is the literal spec-side
description). -/
theorem curve_precomputer_refines_spec (d : ℚ) (m : Bool) (sp r : ℚ) :
    instanceOptions d m sp r = curveSpec d m sp r ∧
    (instanceOptions d m sp r).head? = some ⟨99, getZhenyuan 99 d m, 0⟩ ∧
    (instanceOptions d m sp r).map (fun o => o.level) =
      (List.range 41).map (fun k => 99 + 10 * k) := by
  refine ⟨instanceOptions_eq_curveSpec d m sp r, rfl, ?_⟩
  rw [instanceOptions_eq_curveSpec d m sp r]
  unfold curveSpec
  rw [List.map_map]
  rfl

/-- C6: the breakthrough charge is determined by the span's starting level —
base 2 on `[99,289]`, 4 on `[299,389]`, 8 on `≥ 399` — multiplied by
`1 - reduction/100`. -/
theorem breakthrough_bands (l : ℕ) (r : ℚ) :
    ((99 ≤ l ∧ l ≤ 289) → getBreakthroughTime l r = 2 * (1 - r / 100)) ∧
    ((299 ≤ l ∧ l ≤ 389) → getBreakthroughTime l r = 4 * (1 - r / 100)) ∧
    (399 ≤ l → getBreakthroughTime l r = 8 * (1 - r / 100)) := by
  refine ⟨fun h => ?_, fun h => ?_, fun h => ?_⟩ <;>
    show (if 99 ≤ l ∧ l ≤ 289 then (2:ℚ)
      else if 299 ≤ l ∧ l ≤ 389 then 4
      else if 399 ≤ l then 8 else 0) * (1 - r / 100) = _
  · rw [if_pos h]
  · rw [if_neg (by omega), if_pos h]
  · rw [if_neg (by omega), if_neg (by omega), if_pos h]

/-- C6 (witness): the three bands instantiated at levels 99, 299, 399 with
reduction 0. -/
theorem breakthrough_bands_witness :
    getBreakthroughTime 99 0 = 2 * (1 - 0 / 100) ∧
    getBreakthroughTime 299 0 = 4 * (1 - 0 / 100) ∧
    getBreakthroughTime 399 0 = 8 * (1 - 0 / 100) :=
  ⟨(breakthrough_bands 99 0).1 ⟨by norm_num, by norm_num⟩,
   (breakthrough_bands 299 0).2.1 ⟨by norm_num, by norm_num⟩,
   (breakthrough_bands 399 0).2.2 (by norm_num)⟩

/-- C9: an empty specification list, or one whose replica counts are all zero,
short-circuits to the zero result `{0, 0, ∅}` (the merge fold is never
entered — the early return fires before it). -/
theorem optimize_zero_instances (arts : List ItemSpec) (st : Settings)
    (h : arts = [] ∨ ∀ a ∈ arts, a.count = 0) :
    optimize arts st = some ⟨0, 0, []⟩ := by
  have hinst : expandInstances arts = [] := by
    rcases h with rfl | hall
    · rfl
    · unfold expandInstances
      rw [List.flatMap_eq_nil_iff]
      intro a ha
      rw [hall a ha]
      rfl
  unfold optimize
  rw [hinst]
  rfl

/-- C9 (witness): the empty input. -/
theorem optimize_zero_instances_witness :
    optimize [] ⟨1, 0, TargetType.zhenyuan, 0⟩ = some ⟨0, 0, []⟩ :=
  optimize_zero_instances [] ⟨1, 0, TargetType.zhenyuan, 0⟩ (Or.inl rfl)

theorem selectT_some {F : List DPState} (target : ℚ) (hF : F ≠ []) :
    ∃ b, selectT target F = some b ∧ b ∈ F := by
  unfold selectT
  cases h : selectTLoop target F with
  | some b => exact ⟨b, rfl, (selectTLoop_first F target b h).1⟩
  | none =>
    cases hlast : F.getLast? with
    | none => exact absurd (List.getLast?_eq_none_iff.mp hlast) hF
    | some b => exact ⟨b, rfl, List.mem_of_getLast?_eq_some hlast⟩

/-- C7: on a nonempty frontier with the merge invariant (value and time both
strictly decreasing along the list), the time-budget selector scans from the
highest-value end and returns the first state within budget, which has the
maximum value among all within-budget states; when no state is within budget
it falls back to the frontier's last state, which is its lowest-time state. -/
theorem time_budget_selector (F : List DPState) (target : ℚ)
    (hinv : F.Pairwise (fun a b => b.z < a.z ∧ b.t < a.t)) (hne : F ≠ []) :
    (selectTLoop target F = F.find? (fun s => decide (s.t ≤ target))) ∧
    (∀ b, selectTLoop target F = some b →
      selectT target F = some b ∧ b ∈ F ∧ b.t ≤ target ∧
        ∀ s ∈ F, s.t ≤ target → s.z ≤ b.z) ∧
    (selectTLoop target F = none →
      (∀ s ∈ F, ¬ s.t ≤ target) ∧ selectT target F = F.getLast? ∧
        ∃ b, F.getLast? = some b ∧ ∀ s ∈ F, b.t ≤ s.t) := by
  refine ⟨selectTLoop_eq_find target F, ?_, ?_⟩
  · intro b hb
    have h := selectTLoop_first F target b hb
    refine ⟨?_, h.1, h.2.1, h.2.2 hinv⟩
    unfold selectT
    rw [hb]
  · intro hnone
    refine ⟨selectTLoop_none F target hnone, ?_, ?_⟩
    · unfold selectT
      rw [hnone]
    · cases hlast : F.getLast? with
      | none => exact absurd (List.getLast?_eq_none_iff.mp hlast) hne
      | some b =>
        refine ⟨b, rfl, fun s hs => ?_⟩
        exact getLast_min_t (hinv.imp (fun h => h.2)) hlast s hs

/-- C7 (witness): a two-state frontier satisfying the invariant, with budget 7
covering the high-value state. -/
theorem time_budget_selector_witness :
    (selectTLoop 7 [⟨200, 5, [109]⟩, ⟨0, 0, [99]⟩]
      = ([⟨200, 5, [109]⟩, ⟨0, 0, [99]⟩] : List DPState).find?
          (fun s => decide (s.t ≤ 7))) ∧
    (∀ b, selectTLoop 7 [⟨200, 5, [109]⟩, ⟨0, 0, [99]⟩] = some b →
      selectT 7 [⟨200, 5, [109]⟩, ⟨0, 0, [99]⟩] = some b ∧
        b ∈ ([⟨200, 5, [109]⟩, ⟨0, 0, [99]⟩] : List DPState) ∧ b.t ≤ 7 ∧
        ∀ s ∈ ([⟨200, 5, [109]⟩, ⟨0, 0, [99]⟩] : List DPState), s.t ≤ 7 → s.z ≤ b.z) ∧
    (selectTLoop 7 [⟨200, 5, [109]⟩, ⟨0, 0, [99]⟩] = none →
      (∀ s ∈ ([⟨200, 5, [109]⟩, ⟨0, 0, [99]⟩] : List DPState), ¬ s.t ≤ 7) ∧
        selectT 7 [⟨200, 5, [109]⟩, ⟨0, 0, [99]⟩]
          = ([⟨200, 5, [109]⟩, ⟨0, 0, [99]⟩] : List DPState).getLast? ∧
        ∃ b, ([⟨200, 5, [109]⟩, ⟨0, 0, [99]⟩] : List DPState).getLast? = some b ∧
          ∀ s ∈ ([⟨200, 5, [109]⟩, ⟨0, 0, [99]⟩] : List DPState), b.t ≤ s.t) :=
  time_budget_selector [⟨200, 5, [109]⟩, ⟨0, 0, [99]⟩] 7
    (by with_unfolding_all decide) (by with_unfolding_all decide)

/-- C8: after processing any prefix of instances the frontier's size never
exceeds the number of width-100 value buckets spanning the range of the
value deltas achievable for that prefix. -/
theorem frontier_size_le_buckets (arts : List ItemSpec) (st : Settings) (k : ℕ) :
    (prefixFrontier arts st k).length ≤
      bucketSpan (achievableFrom [0] ((instOptsOf arts st).take k)) := by
  apply length_le_bucketSpan
  · unfold prefixFrontier
    apply runMergeFrom_pairwise_bucket
    unfold initFrontier
    exact List.pairwise_singleton _ _
  · unfold prefixFrontier
    intro s hs
    refine runMergeFrom_z_achievable _ 0 _ [0] ?_ s hs
    intro x hx
    unfold initFrontier at hx
    rcases List.mem_singleton.mp hx with rfl
    exact List.mem_singleton.mpr rfl

/-- C10: for valid positive inputs with at least one instance, every frontier
state throughout the fold has nonnegative value delta and nonnegative time,
and the returned record exists with total value at least the all-99 baseline
total and nonnegative total time. -/
theorem optimize_result_bounds (arts : List ItemSpec) (st : Settings)
    (hne : expandInstances arts ≠ [])
    (hd : ∀ a ∈ arts, 0 < a.difficulty)
    (hsp : 0 < st.speed) (hr0 : 0 ≤ st.reduction) (hr : st.reduction ≤ 100) :
    (∀ k, ∀ s ∈ prefixFrontier arts st k, 0 ≤ s.z ∧ 0 ≤ s.t) ∧
    ∃ res, optimize arts st = some res ∧
      baseTotal (expandInstances arts) ≤ res.totalZhenyuan ∧ 0 ≤ res.totalTimeHours := by
  have hOK : ∀ o ∈ instOptsOf arts st, optionsOK o := instOptsOf_OK hd hsp hr
  have hInit : ∀ s ∈ initFrontier arts, stateOK s := by
    intro s hs
    unfold initFrontier at hs
    rcases List.mem_singleton.mp hs with rfl
    exact ⟨le_refl 0, le_refl 0⟩
  have hfinal : ∀ s ∈ finalFrontier arts st, stateOK s := by
    unfold finalFrontier
    exact runMergeFrom_OK _ 0 _ hOK hInit
  have hFne : finalFrontier arts st ≠ [] := by
    unfold finalFrontier
    apply runMergeFrom_ne_nil _ 0 _ (instOptsOf_ne_nil arts st)
    unfold initFrontier
    exact List.cons_ne_nil _ _
  constructor
  · intro k
    unfold prefixFrontier
    apply runMergeFrom_OK _ 0 _ _ hInit
    intro o ho
    exact hOK o (List.mem_of_mem_take ho)
  · have hbest : ∃ b, bestState arts st = some b ∧ b ∈ finalFrontier arts st := by
      unfold bestState
      cases st.targetType with
      | zhenyuan =>
        obtain ⟨b, hb⟩ := selectZ_some (baseTotal (expandInstances arts)) st.targetValue hFne
        exact ⟨b, hb, selectZ_mem hb⟩
      | time => exact selectT_some st.targetValue hFne
    obtain ⟨b, hb, hbmem⟩ := hbest
    obtain ⟨hbz, hbt⟩ := hfinal b hbmem
    refine ⟨⟨b.z + baseTotal (expandInstances arts), b.t,
      ((expandInstances arts).zip b.choices).map (fun p => (p.1.uniqueId, p.2))⟩, ?_, ?_, hbt⟩
    · unfold optimize
      rw [if_neg hne, hb]
      rfl
    · show baseTotal (expandInstances arts) ≤ b.z + baseTotal (expandInstances arts)
      omega

/-- C10 (witness): a single primary instance of difficulty 1, speed 1,
reduction 0, resource-floor target 0. -/
theorem optimize_result_bounds_witness :
    (∀ k, ∀ s ∈ prefixFrontier [⟨"a", 1, true, 1⟩] ⟨1, 0, TargetType.zhenyuan, 0⟩ k,
      0 ≤ s.z ∧ 0 ≤ s.t) ∧
    ∃ res, optimize [⟨"a", 1, true, 1⟩] ⟨1, 0, TargetType.zhenyuan, 0⟩ = some res ∧
      baseTotal (expandInstances [⟨"a", 1, true, 1⟩]) ≤ res.totalZhenyuan ∧
      0 ≤ res.totalTimeHours :=
  optimize_result_bounds [⟨"a", 1, true, 1⟩] ⟨1, 0, TargetType.zhenyuan, 0⟩
    (by with_unfolding_all decide)
    (by intro a ha; rcases List.mem_singleton.mp ha with rfl; norm_num)
    (by norm_num) (by norm_num) (by norm_num)

set_option maxRecDepth 100000 in
/-- C4 (counterexample): two identical replicas of a positive-difficulty art
(difficulty `1/1000`, primary, speed 1, reduction 0) in resource-floor mode
with target `2 × value(99) = 0`: the optimizer does *not* return total time 0 —
the baseline state shares value bucket 0 with higher-value states and is
discarded by the bucket filter, so the selector's last surviving state has
positive time (the code returns both instances at level 499). -/
theorem resource_floor_two_instances_cex :
    (optimize [⟨"a", 1/1000, true, 2⟩]
        ⟨1, 0, TargetType.zhenyuan, ((2 * getZhenyuan 99 (1/1000) true : ℤ) : ℚ)⟩).map
      (fun res => res.totalTimeHours) ≠ some 0 := by
  with_unfolding_all decide

/-- C4 (amended): with two identical instances in resource-floor mode with
target `2 × value(99)`, the optimizer returns total time 0, total value
`2 × value(99)` and both instances at level 99, provided the difficulty is at
least 3 — large enough that every nonzero achievable value delta is at least
the bucket width 100, so the baseline state keeps its own bucket (the
counterexample shows the claim fails for small positive difficulties). -/
theorem resource_floor_two_instances (idStr : String) (d : ℚ) (m : Bool) (sp r : ℚ)
    (hd : 3 ≤ d) (hsp : 0 < sp) (hr0 : 0 ≤ r) (hr : r ≤ 100) :
    optimize [⟨idStr, d, m, 2⟩] ⟨sp, r, TargetType.zhenyuan, ((2 * getZhenyuan 99 d m : ℤ) : ℚ)⟩
      = some ⟨2 * getZhenyuan 99 d m, 0,
          [(idStr ++ "_" ++ toString 0, 99), (idStr ++ "_" ++ toString 1, 99)]⟩ := by
  have hd0 : 0 < d := by linarith
  have hR : ∀ p ∈ optionsLoop d m sp r 40 99 0,
      100 ≤ p.z - getZhenyuan 99 d m ∧ 0 < p.t := by
    intro p hp
    have h := optionsLoop_mem d m sp r hd0 hsp hr 40 99 0 (le_refl 99) p hp
    have hgap := getZhenyuan_gap_hundred d m (l := 99) (le_refl 99) hd
    have hstep : 0 < getStepCost 99 d sp r := getStepCost_pos _ d sp r hd0 hsp hr
    have hz : getZhenyuan (99 + 10) d m ≤ p.z := h.2.1
    exact ⟨by omega, by linarith [h.1]⟩
  obtain ⟨F₁, hF₁eq, hF₁P⟩ := mergeStep_baseline 0 ⟨99, getZhenyuan 99 d m, 0⟩
    (optionsLoop d m sp r 40 99 0) [] [99, 99] rfl hR
    (fun x hx => absurd hx (List.not_mem_nil x))
  have hstep1 : mergeStep 0 (instanceOptions d m sp r) [⟨0, 0, [99, 99]⟩]
      = F₁ ++ [⟨0, 0, [99, 99]⟩] := hF₁eq
  obtain ⟨F₂, hF₂eq, hF₂P⟩ := mergeStep_baseline 1 ⟨99, getZhenyuan 99 d m, 0⟩
    (optionsLoop d m sp r 40 99 0) F₁ [99, 99] rfl hR hF₁P
  have hstep2 : mergeStep 1 (instanceOptions d m sp r) (F₁ ++ [⟨0, 0, [99, 99]⟩])
      = F₂ ++ [⟨0, 0, [99, 99]⟩] := hF₂eq
  have hfront : finalFrontier [⟨idStr, d, m, 2⟩]
      ⟨sp, r, TargetType.zhenyuan, ((2 * getZhenyuan 99 d m : ℤ) : ℚ)⟩
      = F₂ ++ [⟨0, 0, [99, 99]⟩] := by
    show mergeStep 1 (instanceOptions d m sp r)
        (mergeStep 0 (instanceOptions d m sp r) [⟨0, 0, [99, 99]⟩]) = _
    rw [hstep1, hstep2]
  have hall : ∀ s ∈ F₂ ++ [⟨0, 0, ([99, 99] : List ℕ)⟩],
      ((2 * getZhenyuan 99 d m : ℤ) : ℚ) ≤
        (((s.z + baseTotal (expandInstances [⟨idStr, d, m, 2⟩])) : ℤ) : ℚ) := by
    intro s hs
    have hz : 0 ≤ s.z := by
      rcases List.mem_append.mp hs with h1 | h2
      · have := (hF₂P s h1).1
        omega
      · rcases List.mem_singleton.mp h2 with rfl
        exact le_refl 0
    have hbase : baseTotal (expandInstances [⟨idStr, d, m, 2⟩])
        = getZhenyuan 99 d m + (getZhenyuan 99 d m + 0) := rfl
    rw [hbase]
    have hzq : (0 : ℚ) ≤ ((s.z : ℤ) : ℚ) := by exact_mod_cast hz
    push_cast
    push_cast at hzq
    linarith
  have hsel : bestState [⟨idStr, d, m, 2⟩]
      ⟨sp, r, TargetType.zhenyuan, ((2 * getZhenyuan 99 d m : ℤ) : ℚ)⟩
      = some ⟨0, 0, [99, 99]⟩ := by
    show selectZ (baseTotal (expandInstances [⟨idStr, d, m, 2⟩]))
        ((2 * getZhenyuan 99 d m : ℤ) : ℚ)
        (finalFrontier [⟨idStr, d, m, 2⟩]
          ⟨sp, r, TargetType.zhenyuan, ((2 * getZhenyuan 99 d m : ℤ) : ℚ)⟩) = _
    rw [hfront]
    unfold selectZ
    have hloop := selectZLoop_all_true (F₂ ++ [⟨0, 0, [99, 99]⟩])
      (baseTotal (expandInstances [⟨idStr, d, m, 2⟩]))
      ((2 * getZhenyuan 99 d m : ℤ) : ℚ) none (by simp) hall
    rw [hloop, List.getLast?_concat]
  have hne2 : expandInstances [⟨idStr, d, m, 2⟩] ≠ [] := by
    rw [show expandInstances [⟨idStr, d, m, 2⟩]
      = [⟨idStr ++ "_" ++ toString 0, d, m⟩, ⟨idStr ++ "_" ++ toString 1, d, m⟩] from rfl]
    exact List.cons_ne_nil _ _
  unfold optimize
  rw [if_neg hne2, hsel]
  refine congrArg some (OptResult_eq ?_ rfl rfl)
  show (0 : ℤ) + (getZhenyuan 99 d m + (getZhenyuan 99 d m + 0)) = 2 * getZhenyuan 99 d m
  ring

/-- C4 (witness): difficulty 3, primary, speed 1, reduction 0. -/
theorem resource_floor_two_instances_witness :
    optimize [⟨"a", 3, true, 2⟩] ⟨1, 0, TargetType.zhenyuan, ((2 * getZhenyuan 99 3 true : ℤ) : ℚ)⟩
      = some ⟨2 * getZhenyuan 99 3 true, 0,
          [("a" ++ "_" ++ toString 0, 99), ("a" ++ "_" ++ toString 1, 99)]⟩ :=
  resource_floor_two_instances "a" 3 true 1 0 (by norm_num) (by norm_num) (by norm_num)
    (by norm_num)

set_option maxRecDepth 100000 in
/-- C1 (witness): the characterization instantiated on concrete candidate
lists. -/
theorem prune_phase_characterization_witness :
    prune ([⟨250, 10, []⟩] ++ [⟨140, 5, []⟩]) =
      prune [⟨250, 10, []⟩] ++
        pruneAux [⟨140, 5, []⟩] (contMin none (prune [⟨250, 10, []⟩]))
          (∅ ∪ bucketsOf (prune [⟨250, 10, []⟩])) ∧
    (∀ b, (prune [⟨250, 10, []⟩]).getLast? = some b →
      ∀ s ∈ prune [⟨250, 10, []⟩], b.t ≤ s.t) ∧
    (prune ([⟨250, 10, []⟩] ++ [⟨140, 5, []⟩])).Sublist ([⟨250, 10, []⟩] ++ [⟨140, 5, []⟩]) ∧
    (prune ([⟨250, 10, []⟩] ++ [⟨140, 5, []⟩])).Pairwise (fun a b => b.t < a.t) ∧
    (prune ([⟨250, 10, []⟩] ++ [⟨140, 5, []⟩])).Pairwise
      (fun a b => bucketOfS a ≠ bucketOfS b) :=
  prune_phase_characterization [⟨250, 10, []⟩] [⟨140, 5, []⟩]

/-- C2 (witness): the frontier invariant instantiated on a concrete input. -/
theorem frontier_value_desc_time_desc_witness :
    (prefixFrontier [⟨"a", 2, true, 1⟩] ⟨1, 0, TargetType.time, 0⟩ 1).Pairwise
      (fun a b => b.z < a.z ∧ b.t < a.t) :=
  frontier_value_desc_time_desc [⟨"a", 2, true, 1⟩] ⟨1, 0, TargetType.time, 0⟩ 1

/-- C5 (witness): the curve refinement instantiated at difficulty 1, primary,
speed 1, reduction 0. -/
theorem curve_precomputer_refines_spec_witness :
    instanceOptions 1 true 1 0 = curveSpec 1 true 1 0 ∧
    (instanceOptions 1 true 1 0).head? = some ⟨99, getZhenyuan 99 1 true, 0⟩ ∧
    (instanceOptions 1 true 1 0).map (fun o => o.level) =
      (List.range 41).map (fun k => 99 + 10 * k) :=
  curve_precomputer_refines_spec 1 true 1 0

/-- C8 (witness): the size bound instantiated on a concrete input and
prefix. -/
theorem frontier_size_le_buckets_witness :
    (prefixFrontier [⟨"a", 2, true, 1⟩] ⟨1, 0, TargetType.time, 0⟩ 1).length ≤
      bucketSpan (achievableFrom [0]
        ((instOptsOf [⟨"a", 2, true, 1⟩] ⟨1, 0, TargetType.time, 0⟩).take 1)) :=
  frontier_size_le_buckets [⟨"a", 2, true, 1⟩] ⟨1, 0, TargetType.time, 0⟩ 1
